import Mathlib

/-!
# GuitarScales: fingering enumeration, consistency filter and top-K selection

A shallow embedding of `generate_png_images_for_scales.go`.

Conventions of the embedding:

* Go `int` values are Lean `Int`; Go's `/` and `%` on `int` are `Int.tdiv` and `Int.tmod`
  (truncation towards zero).  `int` is taken to be 64 bits wide.  In `getScale`, whose
  step pattern is an argument, every `+` is followed by `wrapInt`, the two's complement
  wrap-around of Go; in the other functions no sum can leave the 64-bit range.
* Go slices are Lean lists; `append(result, x)` is `result ++ [x]`.  A `nil` slice and an
  empty slice are both `[]` (the functions below only test `!= nil` on a slice that is
  `nil` exactly when nothing was appended to it).
* The fixed-size array `[NumStrings][NumFrets]MusicalNote` is a function on
  `Fin NumStrings` and `Fin NumFrets`; an assignment to an element is a pointwise update.
* Reading a Go array or slice at a computed `int` index is `index`, which is `none`
  where Go panics with an index out of range.
* `float64` arithmetic is abstracted: the score type `K` carries the operations
  `0, 1, +, -, *, /`, the conversion from `int` and a square-root function, with a
  linear order for the comparison `<`.  (On 64-bit positions no score is a NaN or an
  infinity, so `<` on the scores that occur is a linear order.)
* `sort.Slice` belongs to the Go standard library.  What holds for every sorted
  rearrangement is proved from its contract, `SliceSorter`; the order of equal scores
  depends on the algorithm, which is embedded as `sortSlice`.
-/

namespace GuitarScales

/-! ## Constants -/

/-- Number of strings of the instrument (`NumStrings = 6`). -/
def NumStrings : Nat := 6

/-- Number of frets per string, the open string included (`NumFrets = 25`). -/
def NumFrets : Nat := 25

/-- Size of the chromatic alphabet (`NumCanonicalNotes = 12`). -/
def NumCanonicalNotes : Int := 12

/-- Lowest octave of the inverse index (`MinOctave = 2`). -/
def MinOctave : Int := 2

/-- Highest octave of the inverse index (`MaxOctave = 6`). -/
def MaxOctave : Int := 6

/-- Number of fingerings kept after sorting (`ScaleCutoff = 10`). -/
def ScaleCutoff : Nat := 10

/-- Names of the open strings, string 0 first. -/
def getOpenStringNotes : List String := ["E", "B", "G", "D", "A", "E"]

/-- Octaves of the open strings, string 0 first. -/
def getOpenStringOctaves : List Int := [4, 3, 3, 3, 2, 2]

/-- The chromatic alphabet, sharps only, in the three rows of four of the source. -/
def getCanonicalNotes : List String :=
  ["C", "C#", "D", "D#"] ++
  ["E", "F", "F#", "G"] ++
  ["G#", "A", "A#", "B"]

/-! ## Data model -/

/-- A pitch: `type MusicalNote struct { note string; octave int }`. -/
structure MusicalNote where
  note : String
  octave : Int
deriving DecidableEq, Repr

/-- A position: `type FretboardCoordinate struct { stringId int; fretId int }`. -/
structure FretboardCoordinate where
  stringId : Int
  fretId : Int
deriving DecidableEq, Repr

/-- The layout: `type Fretboard struct { musicalNotes [NumStrings][NumFrets]MusicalNote }`. -/
structure Fretboard where
  musicalNotes : Fin NumStrings → Fin NumFrets → MusicalNote

/-- The zero value produced by `new(Fretboard)`: every element is `MusicalNote{"", 0}`. -/
def Fretboard.zero : Fretboard := ⟨fun _ _ => ⟨"", 0⟩⟩

/-- The assignment `fretboard.musicalNotes[stringId][fretId] = musicalNote`. -/
def Fretboard.set (fretboard : Fretboard) (stringId : Fin NumStrings) (fretId : Fin NumFrets)
    (musicalNote : MusicalNote) : Fretboard :=
  ⟨fun s f => if s = stringId ∧ f = fretId then musicalNote else fretboard.musicalNotes s f⟩

/-- The read `fretboard.musicalNotes[c.stringId][c.fretId]` at a position with `int`
fields (as in `saveFretboardSequence`); `none` where Go panics. -/
def Fretboard.noteAt (fretboard : Fretboard) (c : FretboardCoordinate) : Option MusicalNote :=
  if h : (0 ≤ c.stringId ∧ c.stringId.toNat < NumStrings) ∧
      (0 ≤ c.fretId ∧ c.fretId.toNat < NumFrets) then
    some (fretboard.musicalNotes ⟨c.stringId.toNat, h.1.2⟩ ⟨c.fretId.toNat, h.2.2⟩)
  else none

/-- The read `data[i]` of an array or slice at an `int` index; `none` where Go panics. -/
def index {α : Type} (data : List α) (i : Int) : Option α :=
  if 0 ≤ i then data[i.toNat]? else none

/-! ## Position table builder -/

/-- The loop of `indexOf`, started at index `k`. -/
def indexOfFrom (element : String) : Int → List String → Int
  | _, [] => -1
  | k, v :: rest => if element = v then k else indexOfFrom element (k + 1) rest

/-- The first index of `element` in `data`, or `-1`. -/
def indexOf (element : String) (data : List String) : Int :=
  indexOfFrom element 0 data

/-- The body of `getFretboard`, every array read checked. -/
def getFretboard? : Option Fretboard :=
  let openStringNotes := getOpenStringNotes
  let openStringOctaves := getOpenStringOctaves
  let canonicalNotes := getCanonicalNotes
  (List.finRange NumStrings).foldlM (fun fretboard stringId => do
      let openStringNote ← index openStringNotes stringId.val
      let openStringOctave ← index openStringOctaves stringId.val
      let openStringCanonicalId := indexOf openStringNote canonicalNotes
      (List.finRange NumFrets).foldlM (fun fretboard fretId => do
          let note ← index canonicalNotes
            (Int.tmod (openStringCanonicalId + fretId.val) NumCanonicalNotes)
          pure (fretboard.set stringId fretId
            ⟨note, openStringOctave +
              Int.tdiv (openStringCanonicalId + fretId.val) NumCanonicalNotes⟩))
        fretboard)
    Fretboard.zero

/-- The layout built by `getFretboard`: the value of `getFretboard?`, none of whose array
reads is out of range. -/
def getFretboard : Fretboard := getFretboard?.get (by decide)

/-- All positions of the layout holding `musicalNote`, strings outermost. -/
def getMusicalNoteCoordinates (musicalNote : MusicalNote) (fretboard : Fretboard) :
    List FretboardCoordinate :=
  (List.finRange NumStrings).foldl (fun result stringId =>
      (List.finRange NumFrets).foldl (fun result fretId =>
          if fretboard.musicalNotes stringId fretId = musicalNote then
            result ++ [⟨stringId.val, fretId.val⟩]
          else result)
        result)
    []

/-- The values of `for octave := lo; octave <= hi; octave++`. -/
def octaveRange (lo hi : Int) : List Int :=
  (List.range (hi + 1 - lo).toNat).map fun k => lo + k

/-- The inverse index, a Go `map[MusicalNote][]FretboardCoordinate` seen as a partial
function on keys; `result[k] = v` updates it at `k`. -/
def getMusicalNoteToCoordinatesMap (fretboard : Fretboard) :
    MusicalNote → Option (List FretboardCoordinate) :=
  let canonicalNotes := getCanonicalNotes
  (octaveRange MinOctave MaxOctave).foldl (fun result octave =>
      canonicalNotes.foldl (fun result canonicalNote =>
          let musicalNote : MusicalNote := ⟨canonicalNote, octave⟩
          Function.update result musicalNote
            (some (getMusicalNoteCoordinates musicalNote fretboard)))
        result)
    (fun _ => none)

/-! ## Sequence enumerator -/

/-- Every way to realise `scale` as a sequence of positions of `fretboard`. -/
def getAllFretboardSequences (scale : List MusicalNote) (fretboard : Fretboard) :
    List (List FretboardCoordinate) :=
  match scale with
  | [] => []
  | musicalNote :: subScale =>
    let numNotes := (musicalNote :: subScale).length
    let musicalNoteCoords := getMusicalNoteCoordinates musicalNote fretboard
    if musicalNoteCoords ≠ [] then
      if numNotes = 1 then
        musicalNoteCoords.foldl (fun result musicalNoteCoord =>
          result ++ [[musicalNoteCoord]]) []
      else
        let subResults := getAllFretboardSequences subScale fretboard
        musicalNoteCoords.foldl (fun result musicalNoteCoord =>
            subResults.foldl (fun result subResult =>
                result ++ [[musicalNoteCoord] ++ subResult])
              result)
          []
    else []

/-! ## Consistency filter and scorer -/

section Score

variable {K : Type} [Zero K] [One K] [Add K] [Sub K] [Mul K] [Div K] [IntCast K]

/-- Straight-line distance between `(x1, y1)` and `(x2, y2)`. -/
def euclideanDistance (sqrt : K → K) (x1 y1 x2 y2 : K) : K :=
  let dx := x2 - x1
  let dy := y2 - y1
  sqrt (dx * dx + dy * dy)

/-- The first loop of `clusterDistance`: the state is the index `i` of the next element
and the two running means. -/
def runningMeans (fretboardSequence : List FretboardCoordinate) : Int × K × K :=
  fretboardSequence.foldl (fun (state : Int × K × K) coord =>
      let i : K := ((state.1 : Int) : K)
      (state.1 + 1,
        (i * state.2.1 + ((coord.stringId : Int) : K)) / (i + 1),
        (i * state.2.2 + ((coord.fretId : Int) : K)) / (i + 1)))
    (0, 0, 0)

/-- The score of a sequence: the sum of the distances of its positions to the running
mean reached after the last position. -/
def clusterDistance (sqrt : K → K) (fretboardSequence : List FretboardCoordinate) : K :=
  let means := runningMeans (K := K) fretboardSequence
  let meanStringId := means.2.1
  let meanFretId := means.2.2
  fretboardSequence.foldl (fun score coord =>
      score + euclideanDistance sqrt ((coord.stringId : Int) : K) ((coord.fretId : Int) : K)
        meanStringId meanFretId)
    0

end Score

/-- A sequence with its score: `type ScoredFretboardSequence struct`. -/
structure ScoredFretboardSequence (K : Type) where
  sequence : List FretboardCoordinate
  score : K

/-- The loop of `isConsistent` over the adjacent pairs `(seq[i-1], seq[i])`, `i = 1, 2, ...`:
`false` at the first pair whose string index increases, `true` when the pairs run out. -/
def isConsistent : List FretboardCoordinate → Bool
  | a :: b :: rest => if a.stringId < b.stringId then false else isConsistent (b :: rest)
  | _ => true

/-- What `sort.Slice` requires of its `less` argument: a strict weak ordering. -/
structure IsStrictWeakLess {α : Type} (less : α → α → Bool) : Prop where
  asymm : ∀ a b, less a b = true → less b a = false
  negTrans : ∀ a b c, less a b = false → less b c = false → less a c = false

/-- The contract of `sort.Slice(x, less)`: the slice is rearranged (a permutation of its
elements), and afterwards no element is `less` than an element before it, whenever `less`
is a strict weak ordering.  The sort is not promised to be stable. -/
structure SliceSorter where
  sort : {α : Type} → (α → α → Bool) → List α → List α
  perm : ∀ {α : Type} (less : α → α → Bool) (x : List α), (sort less x).Perm x
  sorted : ∀ {α : Type} (less : α → α → Bool) (x : List α), IsStrictWeakLess less →
    (sort less x).Pairwise (fun a b => less b a = false)

/-- A sorter meeting the contract of `sort.Slice`: insertion sort. -/
def insertionSorter : SliceSorter where
  sort := fun less x => List.insertionSort (fun a b => less b a = false) x
  perm := fun less x => List.perm_insertionSort (fun a b => less b a = false) x
  sorted := fun {α} less x hless =>
    haveI : IsTotal α (fun a b => less b a = false) :=
      ⟨fun a b => by
        cases hba : less b a with
        | false => exact Or.inl rfl
        | true => exact Or.inr (hless.asymm b a hba)⟩
    haveI : IsTrans α (fun a b => less b a = false) :=
      ⟨fun a b c hab hbc => hless.negTrans c b a hbc hab⟩
    List.sorted_insertionSort (fun a b => less b a = false) x

section Select

variable {K : Type} [Zero K] [One K] [Add K] [Sub K] [Mul K] [Div K] [IntCast K]
  [LinearOrder K]

/-- The first loop of `scoreAndSortFretboardSequences`: the consistent sequences, scored,
in input order. -/
def scoreConsistent (sqrt : K → K) (fretboardSequences : List (List FretboardCoordinate)) :
    List (ScoredFretboardSequence K) :=
  fretboardSequences.foldl (fun scoredFretboardSequence fretboardSequence =>
      if isConsistent fretboardSequence then
        scoredFretboardSequence ++ [⟨fretboardSequence, clusterDistance sqrt fretboardSequence⟩]
      else scoredFretboardSequence)
    []

/-- Filter by `isConsistent`, score by `clusterDistance`, sort ascending by score and
keep the first `ScaleCutoff` entries. -/
def scoreAndSortFretboardSequences (sorter : SliceSorter) (sqrt : K → K)
    (fretboardSequences : List (List FretboardCoordinate)) :
    List (ScoredFretboardSequence K) :=
  let scoredFretboardSequence := scoreConsistent sqrt fretboardSequences
  let scoredFretboardSequence :=
    sorter.sort (fun a b => decide (a.score < b.score)) scoredFretboardSequence
  if scoredFretboardSequence.length ≤ ScaleCutoff then scoredFretboardSequence
  else scoredFretboardSequence.take ScaleCutoff

/-- The sorted list of scored consistent sequences, before the cutoff. -/
def sortedScored (sorter : SliceSorter) (sqrt : K → K)
    (fretboardSequences : List (List FretboardCoordinate)) : List (ScoredFretboardSequence K) :=
  sorter.sort (fun a b => decide (a.score < b.score)) (scoreConsistent sqrt fretboardSequences)

end Select

/-! ## Scale generator -/

/-- Step pattern of the natural minor scale. -/
def getMinorScaleSteps : List Int := [2, 1, 2, 2, 1, 2, 2, 0]

/-- Step pattern of the major scale. -/
def getMajorScaleSteps : List Int := [2, 2, 1, 2, 2, 2, 1, 0]

/-- Largest value of a 64-bit Go `int`. -/
def MaxInt : Int := 9223372036854775807

/-- Smallest value of a 64-bit Go `int`. -/
def MinInt : Int := -9223372036854775808

/-- The 64-bit two's complement value of an integer: what Go's `+` on `int` leaves of an
exact sum. -/
def wrapInt (x : Int) : Int :=
  (x + 9223372036854775808) % 18446744073709551616 - 9223372036854775808

/-- One pass through the loop body of `getScale`: the state is `result` and `offset`;
`none` where the read of `canonicalNotes` panics. -/
def getScaleStep (rootNoteCanonicalId rootNoteOctave : Int) (canonicalNotes : List String)
    (state : List MusicalNote × Int) (step : Int) : Option (List MusicalNote × Int) := do
  let offset := state.2
  let octave := wrapInt (rootNoteOctave +
    Int.tdiv (wrapInt (rootNoteCanonicalId + offset)) NumCanonicalNotes)
  let note ← index canonicalNotes
    (Int.tmod (wrapInt (rootNoteCanonicalId + offset)) NumCanonicalNotes)
  pure (state.1 ++ [⟨note, octave⟩], wrapInt (offset + step))

/-- The scale of `rootMusicalNote` along `steps`, with Go's 64-bit `int` arithmetic;
`none` where `getScale` panics on a read of the alphabet. -/
def getScale (rootMusicalNote : MusicalNote) (steps : List Int) : Option (List MusicalNote) :=
  let canonicalNotes := getCanonicalNotes
  let rootNoteCanonicalId := indexOf rootMusicalNote.note canonicalNotes
  let rootNoteOctave := rootMusicalNote.octave
  (steps.foldlM (getScaleStep rootNoteCanonicalId rootNoteOctave canonicalNotes) ([], 0)).map
    fun state => state.1

/-- Specification side of the scale generator, to compare `getScale` with: the pitch `s`
semitones above alphabet index `r` of octave `octave`, in exact integer arithmetic: name
`alphabet[(r + s) mod 12]`, octave `octave + (r + s) div 12`. -/
def transposed (r octave s : Int) : MusicalNote :=
  ⟨getCanonicalNotes.getD ((r + s) % 12).toNat "", octave + (r + s) / 12⟩

/-- Specification side of the scale generator: the pitches
`transposed r octave (offset + steps[0] + ... + steps[i-1])`, one per step. -/
def transposedFrom (r octave : Int) : Int → List Int → List MusicalNote
  | _, [] => []
  | offset, step :: rest => transposed r octave offset :: transposedFrom r octave (offset + step) rest

/-- Chromatic height of a pitch: `12 * octave + alphabet index`. -/
def pitchNumber (musicalNote : MusicalNote) : Int :=
  12 * musicalNote.octave + indexOf musicalNote.note getCanonicalNotes

/-- The octave check of `main`: `scaleOctave < 2 || scaleOctave > 6` rejects. -/
def octaveAccepted (scaleOctave : Int) : Bool :=
  !(decide (scaleOctave < 2) || decide (scaleOctave > 6))

/-- The values `offset` takes at the passes of the loop of `getScale`, from a start value,
with Go's 64-bit addition. -/
def getScaleOffsets : Int → List Int → List Int
  | _, [] => []
  | offset, step :: rest => offset :: getScaleOffsets (wrapInt (offset + step)) rest

/-- The indices at which the passes of the loop of `getScale` read the alphabet (listed
for every step; Go runs no pass after one that panics). -/
def getScaleIndices (rootMusicalNote : MusicalNote) (steps : List Int) : List Int :=
  (getScaleOffsets 0 steps).map fun offset =>
    Int.tmod (wrapInt (indexOf rootMusicalNote.note getCanonicalNotes + offset))
      NumCanonicalNotes

/-! ## The sort of the Go library

`sort.Slice` of Go 1.19 and later (package `sort`, `pdqsort_func` and its helpers), which
is not part of the repository.  It sees the slice only through `Less(i, j)` and
`Swap(i, j)`.  The branches that slices of fewer than 50 elements with balanced partitions
never reach are not embedded: where a run would enter `breakPatterns_func`,
`heapSort_func`, `reverseRange_func` or the code for 50 elements and more, the embedding
returns `none`. -/

section GoSort

variable {α : Type}

end GoSort

section SelectGo

variable {K : Type} [Zero K] [One K] [Add K] [Sub K] [Mul K] [Div K] [IntCast K]
  [LinearOrder K]

end SelectGo

/-- A loop that appends `h x` for the elements satisfying the test. -/
theorem foldl_append_if {α β : Type} (p : α → Prop) [DecidablePred p] (h : α → β)
    (l : List α) (init : List β) :
    l.foldl (fun result x => if p x then result ++ [h x] else result) init
      = init ++ (l.filter (fun x => decide (p x))).map h := by
  induction l generalizing init with
  | nil => simp
  | cons x xs ih =>
    by_cases hx : p x <;> simp [List.foldl_cons, ih, hx]

/-- A loop that appends a block `g x` per element. -/
theorem foldl_append_block {α β : Type} (g : α → List β) (l : List α) (init : List β) :
    l.foldl (fun result x => result ++ g x) init = init ++ l.flatMap g := by
  induction l generalizing init with
  | nil => simp
  | cons x xs ih => simp [List.foldl_cons, ih]

/-- The nested loop of `getMusicalNoteCoordinates` as a list expression. -/
theorem getMusicalNoteCoordinates_eq (musicalNote : MusicalNote) (fretboard : Fretboard) :
    getMusicalNoteCoordinates musicalNote fretboard
      = (List.finRange NumStrings).flatMap fun stringId =>
          ((List.finRange NumFrets).filter fun fretId =>
              decide (fretboard.musicalNotes stringId fretId = musicalNote)).map
            fun fretId => (⟨stringId.val, fretId.val⟩ : FretboardCoordinate) := by
  unfold getMusicalNoteCoordinates
  simp only [foldl_append_if]
  rw [foldl_append_block]
  simp

/-- A position is listed for a pitch exactly when the layout read at it gives the pitch. -/
theorem mem_getMusicalNoteCoordinates (musicalNote : MusicalNote) (fretboard : Fretboard)
    (c : FretboardCoordinate) :
    c ∈ getMusicalNoteCoordinates musicalNote fretboard ↔
      fretboard.noteAt c = some musicalNote := by
  rw [getMusicalNoteCoordinates_eq]
  simp only [List.mem_flatMap, List.mem_map, List.mem_filter, List.mem_finRange, true_and,
    decide_eq_true_eq]
  constructor
  · rintro ⟨s, f, hf, rfl⟩
    have h : (0 ≤ ((s.val : Nat) : Int) ∧ ((s.val : Nat) : Int).toNat < NumStrings) ∧
        (0 ≤ ((f.val : Nat) : Int) ∧ ((f.val : Nat) : Int).toNat < NumFrets) := by
      simp [s.isLt, f.isLt]
    simp only [Fretboard.noteAt, dif_pos h]
    simpa using hf
  · intro h
    unfold Fretboard.noteAt at h
    split at h
    · rename_i hr
      refine ⟨⟨c.stringId.toNat, hr.1.2⟩, ⟨c.fretId.toNat, hr.2.2⟩, by simpa using h, ?_⟩
      cases c with
      | mk s f =>
        simp only [FretboardCoordinate.mk.injEq]
        exact ⟨Int.toNat_of_nonneg hr.1.1, Int.toNat_of_nonneg hr.2.1⟩
    · simp at h


/-- A block of one element per step is a `map`. -/
theorem flatMap_wrap {α β : Type} (f : α → β) (l : List α) :
    (l.flatMap fun x => [f x]) = l.map f := by
  induction l with
  | nil => rfl
  | cons x xs ih => simp [List.flatMap_cons, ih]

/-- The enumeration of the empty scale. -/
theorem getAllFretboardSequences_nil (fretboard : Fretboard) :
    getAllFretboardSequences [] fretboard = [] := by
  simp [getAllFretboardSequences]

/-- The enumeration of a one-pitch scale: its candidates, each wrapped. -/
theorem getAllFretboardSequences_single (p : MusicalNote) (fretboard : Fretboard) :
    getAllFretboardSequences [p] fretboard
      = (getMusicalNoteCoordinates p fretboard).map fun c => [c] := by
  have h := foldl_append_block (fun c : FretboardCoordinate => [[c]])
    (getMusicalNoteCoordinates p fretboard) []
  simp only [List.nil_append] at h
  by_cases hc : getMusicalNoteCoordinates p fretboard = []
  · simp [getAllFretboardSequences, hc]
  · simp only [getAllFretboardSequences, List.length_singleton, if_true, ne_eq, hc,
      not_false_eq_true, h]
    exact flatMap_wrap (fun c => [c]) _

/-- The enumeration of a scale of two or more pitches: each candidate of the first pitch
in front of each enumeration of the rest. -/
theorem getAllFretboardSequences_cons_cons (p q : MusicalNote) (rest : List MusicalNote)
    (fretboard : Fretboard) :
    getAllFretboardSequences (p :: q :: rest) fretboard
      = (getMusicalNoteCoordinates p fretboard).flatMap fun c =>
          (getAllFretboardSequences (q :: rest) fretboard).map fun sub => c :: sub := by
  have hin : ∀ (c : FretboardCoordinate) (subs : List (List FretboardCoordinate))
      (init : List (List FretboardCoordinate)),
      subs.foldl (fun result subResult => result ++ [[c] ++ subResult]) init
        = init ++ subs.map fun sub => c :: sub := by
    intro c subs init
    have := foldl_append_block (fun sub : List FretboardCoordinate => [[c] ++ sub]) subs init
    rw [this]
    congr 1
    exact flatMap_wrap (fun sub => [c] ++ sub) subs
  by_cases hc : getMusicalNoteCoordinates p fretboard = []
  · simp [getAllFretboardSequences, hc]
  · rw [getAllFretboardSequences]
    simp only [ne_eq, hc, not_false_eq_true, if_true, List.length_cons, hin]
    rw [if_neg (by omega)]
    have := foldl_append_block (fun c : FretboardCoordinate =>
      (getAllFretboardSequences (q :: rest) fretboard).map fun sub => c :: sub)
      (getMusicalNoteCoordinates p fretboard) []
    simpa using this

/-- Membership in the enumeration of a non-empty scale, position by position. -/
theorem mem_getAllFretboardSequences (fretboard : Fretboard) (p : MusicalNote)
    (rest : List MusicalNote) (s : List FretboardCoordinate) :
    s ∈ getAllFretboardSequences (p :: rest) fretboard ↔
      List.Forall₂ (fun c n => fretboard.noteAt c = some n) s (p :: rest) := by
  induction rest generalizing p s with
  | nil =>
    rw [getAllFretboardSequences_single]
    simp only [List.mem_map, mem_getMusicalNoteCoordinates]
    constructor
    · rintro ⟨c, hc, rfl⟩
      exact List.Forall₂.cons hc List.Forall₂.nil
    · intro h
      cases h with
      | cons hc ht =>
        cases ht
        exact ⟨_, hc, rfl⟩
  | cons q rest ih =>
    rw [getAllFretboardSequences_cons_cons]
    simp only [List.mem_flatMap, List.mem_map, mem_getMusicalNoteCoordinates, ih]
    constructor
    · rintro ⟨c, hc, sub, hsub, rfl⟩
      exact List.Forall₂.cons hc hsub
    · intro h
      cases h with
      | cons hc ht => exact ⟨_, hc, _, ht, rfl⟩

/-- A successful layout read is a read at a position inside the table. -/
theorem noteAt_eq_some_range (fretboard : Fretboard) (c : FretboardCoordinate)
    (n : MusicalNote) (h : fretboard.noteAt c = some n) :
    0 ≤ c.stringId ∧ c.stringId < 6 ∧ 0 ≤ c.fretId ∧ c.fretId < 25 := by
  unfold Fretboard.noteAt at h
  split at h
  · rename_i hr
    obtain ⟨⟨h1, h2⟩, h3, h4⟩ := hr
    simp only [NumStrings, NumFrets] at h2 h4
    omega
  · simp at h

/-- **C1.** For the layout built by `getFretboard` and a scale with at least one pitch, a
position sequence occurs in the enumeration exactly when it is as long as the scale and
each of its positions lies inside the table (string in `[0, 6)`, fret in `[0, 25)`) and
holds the scale's pitch of the same index. -/
theorem getAllFretboardSequences_mem_iff (scale : List MusicalNote) (hscale : scale ≠ [])
    (s : List FretboardCoordinate) :
    s ∈ getAllFretboardSequences scale getFretboard ↔
      s.length = scale.length ∧
        ∀ (i : Nat) (hs : i < s.length) (hn : i < scale.length),
          0 ≤ s[i].stringId ∧ s[i].stringId < 6 ∧ 0 ≤ s[i].fretId ∧ s[i].fretId < 25 ∧
            getFretboard.noteAt s[i] = some scale[i] := by
  cases scale with
  | nil => exact absurd rfl hscale
  | cons p rest =>
    rw [mem_getAllFretboardSequences, List.forall₂_iff_get]
    constructor
    · rintro ⟨hl, h⟩
      refine ⟨hl, fun i hs hn => ?_⟩
      have hi := h i hs hn
      simp only [List.get_eq_getElem] at hi
      have hr := noteAt_eq_some_range _ _ _ hi
      exact ⟨hr.1, hr.2.1, hr.2.2.1, hr.2.2.2, hi⟩
    · rintro ⟨hl, h⟩
      refine ⟨hl, fun i hs hn => ?_⟩
      simp only [List.get_eq_getElem]
      exact (h i hs hn).2.2.2.2

set_option maxRecDepth 4000 in
/-- Witness of C1: on the scale `[E2, E4]` the sequence `[(5,0), (1,5)]` is enumerated. -/
theorem getAllFretboardSequences_mem_iff_witness :
    ([⟨"E", 2⟩, ⟨"E", 4⟩] : List MusicalNote) ≠ [] ∧
      ([⟨5, 0⟩, ⟨1, 5⟩] : List FretboardCoordinate)
        ∈ getAllFretboardSequences [⟨"E", 2⟩, ⟨"E", 4⟩] getFretboard :=
  ⟨by decide,
    (getAllFretboardSequences_mem_iff [⟨"E", 2⟩, ⟨"E", 4⟩] (by decide) [⟨5, 0⟩, ⟨1, 5⟩]).mpr
      (by decide)⟩


/-- **C2.** If some pitch of the scale, at whatever index, has no position on the
fretboard, the enumeration is empty. -/
theorem getAllFretboardSequences_eq_nil_of_missing (scale : List MusicalNote)
    (fretboard : Fretboard)
    (h : ∃ p ∈ scale, getMusicalNoteCoordinates p fretboard = []) :
    getAllFretboardSequences scale fretboard = [] := by
  induction scale with
  | nil => exact getAllFretboardSequences_nil fretboard
  | cons p rest ih =>
    cases rest with
    | nil =>
      obtain ⟨p', hp', hnil⟩ := h
      rw [List.mem_singleton] at hp'
      subst hp'
      rw [getAllFretboardSequences_single, hnil]
      rfl
    | cons q rest =>
      rw [getAllFretboardSequences_cons_cons]
      obtain ⟨p', hp', hnil⟩ := h
      rcases List.mem_cons.mp hp' with heq | hmem
      · subst heq
        rw [hnil]
        rfl
      · rw [ih ⟨p', hmem, hnil⟩]
        simp

set_option maxRecDepth 4000 in
/-- Witness of C2: `E7` is on no string, so the scale `[E2, E7, E4]` has no fingering. -/
theorem getAllFretboardSequences_eq_nil_of_missing_witness :
    (∃ p ∈ ([⟨"E", 2⟩, ⟨"E", 7⟩, ⟨"E", 4⟩] : List MusicalNote),
        getMusicalNoteCoordinates p getFretboard = []) ∧
      getAllFretboardSequences [⟨"E", 2⟩, ⟨"E", 7⟩, ⟨"E", 4⟩] getFretboard = [] :=
  ⟨⟨⟨"E", 7⟩, by decide, by decide⟩,
    getAllFretboardSequences_eq_nil_of_missing [⟨"E", 2⟩, ⟨"E", 7⟩, ⟨"E", 4⟩] getFretboard
      ⟨⟨"E", 7⟩, by decide, by decide⟩⟩

/-- **C3.** For a scale of exactly one pitch `p` the enumeration is the list of the
candidates of `p`, each wrapped into a one-element sequence, in candidate order; it has
as many entries as `p` has candidates. -/
theorem getAllFretboardSequences_one_pitch (p : MusicalNote) (fretboard : Fretboard) :
    getAllFretboardSequences [p] fretboard
        = (getMusicalNoteCoordinates p fretboard).map (fun c => [c]) ∧
      (getAllFretboardSequences [p] fretboard).length
        = (getMusicalNoteCoordinates p fretboard).length := by
  have h := getAllFretboardSequences_single p fretboard
  exact ⟨h, by rw [h, List.length_map]⟩

/-- The loop of `isConsistent` accepts exactly the chains of non-increasing string index. -/
theorem isConsistent_iff_chain (s : List FretboardCoordinate) :
    isConsistent s = true ↔ List.Chain' (fun a b => b.stringId ≤ a.stringId) s := by
  induction s with
  | nil => simp [isConsistent]
  | cons a rest ih =>
    cases rest with
    | nil => simp [isConsistent]
    | cons b rest =>
      rw [List.chain'_cons, ← ih]
      by_cases hab : a.stringId < b.stringId
      · simp [isConsistent, hab]
      · simp only [isConsistent, hab, if_false]
        constructor
        · intro h
          exact ⟨not_lt.mp hab, h⟩
        · intro h
          exact h.2

/-- **C4.** A position sequence is consistent exactly when, at every step `i` with
`1 ≤ i < len(s)`, the string index does not increase: `s[i-1].stringId ≥ s[i].stringId`.
In particular `[(2,0),(1,3)]` is consistent and `[(1,0),(3,2)]` is not. -/
theorem isConsistent_iff :
    (∀ s : List FretboardCoordinate,
      isConsistent s = true ↔
        ∀ (i : Nat) (_h1 : 1 ≤ i) (hi : i < s.length),
          s[i - 1].stringId ≥ s[i].stringId) ∧
      isConsistent [⟨2, 0⟩, ⟨1, 3⟩] = true ∧
      isConsistent [⟨1, 0⟩, ⟨3, 2⟩] = false := by
  refine ⟨fun s => ?_, by decide, by decide⟩
  rw [isConsistent_iff_chain, List.chain'_iff_get]
  constructor
  · intro h i h1 hi
    have := h (i - 1) (by omega)
    simp only [List.get_eq_getElem] at this
    have e : i - 1 + 1 = i := by omega
    simpa [e] using this
  · intro h i hi
    have := h (i + 1) (by omega) (by omega)
    simpa using this

/-! ## Filter, score, sort, cut -/

/-- The comparison handed to `sort.Slice` is a strict weak ordering. -/
theorem scoreLess_strictWeak {K : Type} [LinearOrder K] :
    IsStrictWeakLess (fun a b : ScoredFretboardSequence K => decide (a.score < b.score)) where
  asymm := fun a b h => by
    have h1 : a.score < b.score := of_decide_eq_true h
    exact decide_eq_false (not_lt.mpr (le_of_lt h1))
  negTrans := fun a b c hab hbc => by
    have h1 : ¬ a.score < b.score := of_decide_eq_false hab
    have h2 : ¬ b.score < c.score := of_decide_eq_false hbc
    exact decide_eq_false (not_lt.mpr (le_trans (not_lt.mp h2) (not_lt.mp h1)))

/-- The scoring loop keeps the consistent sequences, in order, each with its score. -/
theorem scoreConsistent_eq {K : Type} [Zero K] [One K] [Add K] [Sub K] [Mul K] [Div K]
    [IntCast K] (sqrt : K → K) (input : List (List FretboardCoordinate)) :
    scoreConsistent sqrt input
      = (input.filter isConsistent).map
          fun s => (⟨s, clusterDistance sqrt s⟩ : ScoredFretboardSequence K) := by
  unfold scoreConsistent
  rw [foldl_append_if (fun s => isConsistent s = true)]
  simp

section SelectLemmas

variable {K : Type} [Zero K] [One K] [Add K] [Sub K] [Mul K] [Div K] [IntCast K]
  [LinearOrder K]

/-- The result is the first `ScaleCutoff` entries of the sorted list. -/
theorem scoreAndSort_eq_take (sorter : SliceSorter) (sqrt : K → K)
    (input : List (List FretboardCoordinate)) :
    scoreAndSortFretboardSequences sorter sqrt input
      = (sortedScored sorter sqrt input).take ScaleCutoff := by
  unfold scoreAndSortFretboardSequences sortedScored
  simp only
  split
  · rename_i h
    exact (List.take_of_length_le h).symm
  · rfl

/-- The sorted list is a rearrangement of the scored consistent sequences. -/
theorem sortedScored_perm (sorter : SliceSorter) (sqrt : K → K)
    (input : List (List FretboardCoordinate)) :
    (sortedScored sorter sqrt input).Perm
      ((input.filter isConsistent).map
        fun s => (⟨s, clusterDistance sqrt s⟩ : ScoredFretboardSequence K)) := by
  rw [← scoreConsistent_eq]
  exact sorter.perm _ _

/-- In the sorted list every entry scores at most what every later entry scores. -/
theorem sortedScored_pairwise (sorter : SliceSorter) (sqrt : K → K)
    (input : List (List FretboardCoordinate)) :
    (sortedScored sorter sqrt input).Pairwise (fun a b => a.score ≤ b.score) := by
  have h := sorter.sorted (fun a b : ScoredFretboardSequence K => decide (a.score < b.score))
    (scoreConsistent sqrt input) scoreLess_strictWeak
  refine List.Pairwise.imp ?_ h
  intro a b hab
  exact not_lt.mp (of_decide_eq_false hab)

/-- Every entry of the sorted list is a consistent input sequence with its score. -/
theorem mem_sortedScored (sorter : SliceSorter) (sqrt : K → K)
    (input : List (List FretboardCoordinate)) (e : ScoredFretboardSequence K)
    (he : e ∈ sortedScored sorter sqrt input) :
    e.sequence ∈ input ∧ isConsistent e.sequence = true ∧
      e.score = clusterDistance sqrt e.sequence := by
  have h := (sortedScored_perm sorter sqrt input).mem_iff.mp he
  simp only [List.mem_map, List.mem_filter] at h
  obtain ⟨s, ⟨hs, hc⟩, rfl⟩ := h
  exact ⟨hs, hc, rfl⟩

/-- The number of returned entries, in terms of the number of consistent inputs. -/
theorem scoreAndSort_length_eq (sorter : SliceSorter) (sqrt : K → K)
    (input : List (List FretboardCoordinate)) :
    (scoreAndSortFretboardSequences sorter sqrt input).length
      = min (input.countP isConsistent) 10 := by
  rw [scoreAndSort_eq_take, List.length_take, (sortedScored_perm sorter sqrt input).length_eq,
    List.length_map, ← List.countP_eq_length_filter, ScaleCutoff]
  exact Nat.min_comm _ _

/-- **C5.** The result has `min(N, 10)` entries, `N` the number of input entries (with
multiplicity) that satisfy `isConsistent`: never more than 10, exactly `N` when `N ≤ 10`,
none when `N = 0`. -/
theorem scoreAndSort_length (sorter : SliceSorter) (sqrt : K → K)
    (input : List (List FretboardCoordinate)) :
    (scoreAndSortFretboardSequences sorter sqrt input).length
        = min (input.countP isConsistent) 10 ∧
      (scoreAndSortFretboardSequences sorter sqrt input).length ≤ 10 ∧
      (input.countP isConsistent ≤ 10 →
        (scoreAndSortFretboardSequences sorter sqrt input).length
          = input.countP isConsistent) ∧
      (input.countP isConsistent = 0 →
        scoreAndSortFretboardSequences sorter sqrt input = []) := by
  have hlen := scoreAndSort_length_eq sorter sqrt input
  refine ⟨hlen, ?_, ?_, ?_⟩
  · rw [hlen]; exact Nat.min_le_right _ _
  · intro h; rw [hlen]; exact Nat.min_eq_left h
  · intro h
    apply List.eq_nil_of_length_eq_zero
    rw [hlen, h]; rfl

/-- **C6.** The result is sorted ascending by score: each entry scores at most what the
entry after it scores. -/
theorem scoreAndSort_sorted (sorter : SliceSorter) (sqrt : K → K)
    (input : List (List FretboardCoordinate)) :
    ∀ (i : Nat) (h : i + 1 < (scoreAndSortFretboardSequences sorter sqrt input).length),
      ((scoreAndSortFretboardSequences sorter sqrt input)[i]).score
        ≤ ((scoreAndSortFretboardSequences sorter sqrt input)[i + 1]).score := by
  have hp : (scoreAndSortFretboardSequences sorter sqrt input).Pairwise
      (fun a b => a.score ≤ b.score) := by
    rw [scoreAndSort_eq_take]
    exact (sortedScored_pairwise sorter sqrt input).sublist (List.take_sublist _ _)
  intro i h
  exact List.pairwise_iff_getElem.mp hp i (i + 1) (by omega) h (by omega)

/-- Witness of C6, over the reals with the real square root and insertion sort: of the
three inputs two are consistent, and the first returned entry scores at most the second. -/
theorem scoreAndSort_sorted_witness :
    ∃ h : 0 + 1 < (scoreAndSortFretboardSequences insertionSorter Real.sqrt
        [[⟨2, 0⟩, ⟨1, 3⟩], [⟨1, 0⟩, ⟨3, 2⟩], [⟨0, 0⟩]]).length,
      ((scoreAndSortFretboardSequences insertionSorter Real.sqrt
          [[⟨2, 0⟩, ⟨1, 3⟩], [⟨1, 0⟩, ⟨3, 2⟩], [⟨0, 0⟩]])[0]).score
        ≤ ((scoreAndSortFretboardSequences insertionSorter Real.sqrt
          [[⟨2, 0⟩, ⟨1, 3⟩], [⟨1, 0⟩, ⟨3, 2⟩], [⟨0, 0⟩]])[0 + 1]).score :=
  have h : 0 + 1 < (scoreAndSortFretboardSequences insertionSorter Real.sqrt
      [[⟨2, 0⟩, ⟨1, 3⟩], [⟨1, 0⟩, ⟨3, 2⟩], [⟨0, 0⟩]]).length := by
    rw [scoreAndSort_length_eq]
    decide
  ⟨h, scoreAndSort_sorted insertionSorter Real.sqrt
    [[⟨2, 0⟩, ⟨1, 3⟩], [⟨1, 0⟩, ⟨3, 2⟩], [⟨0, 0⟩]] 0 h⟩

/-- **C7.** Every returned entry holds a sequence of the input that satisfies
`isConsistent`, with the score `clusterDistance` gives it; no inconsistent sequence is
returned. -/
theorem scoreAndSort_entries (sorter : SliceSorter) (sqrt : K → K)
    (input : List (List FretboardCoordinate)) :
    (∀ e ∈ scoreAndSortFretboardSequences sorter sqrt input,
      e.sequence ∈ input ∧ isConsistent e.sequence = true ∧
        e.score = clusterDistance sqrt e.sequence) ∧
      (∀ s : List FretboardCoordinate, isConsistent s = false →
        s ∉ (scoreAndSortFretboardSequences sorter sqrt input).map (fun e => e.sequence)) := by
  have hmem : ∀ e ∈ scoreAndSortFretboardSequences sorter sqrt input,
      e.sequence ∈ input ∧ isConsistent e.sequence = true ∧
        e.score = clusterDistance sqrt e.sequence := by
    intro e he
    rw [scoreAndSort_eq_take] at he
    exact mem_sortedScored sorter sqrt input e (List.mem_of_mem_take he)
  refine ⟨hmem, ?_⟩
  intro s hs hin
  obtain ⟨e, he, rfl⟩ := List.mem_map.mp hin
  have := (hmem e he).2.1
  rw [hs] at this
  exact Bool.false_ne_true this

/-- **C8.** The result is a lowest-scoring selection: its sequences form a sub-multiset of
the consistent input sequences, and the consistent input sequences left out (the rest of
that multiset) each score at least what every returned entry scores. -/
theorem scoreAndSort_lowest (sorter : SliceSorter) (sqrt : K → K)
    (input : List (List FretboardCoordinate)) :
    ((scoreAndSortFretboardSequences sorter sqrt input).map (fun e => e.sequence)).Subperm
        (input.filter isConsistent) ∧
      ∃ leftOut : List (List FretboardCoordinate),
        ((scoreAndSortFretboardSequences sorter sqrt input).map (fun e => e.sequence)
            ++ leftOut).Perm (input.filter isConsistent) ∧
          ∀ r ∈ leftOut, ∀ e ∈ scoreAndSortFretboardSequences sorter sqrt input,
            e.score ≤ clusterDistance sqrt r := by
  have hperm : ((sortedScored sorter sqrt input).map (fun e => e.sequence)).Perm
      (input.filter isConsistent) := by
    have h := (sortedScored_perm sorter sqrt input).map (fun e => e.sequence)
    simpa [Function.comp_def] using h
  have hsplit : (scoreAndSortFretboardSequences sorter sqrt input).map (fun e => e.sequence)
      ++ ((sortedScored sorter sqrt input).drop ScaleCutoff).map (fun e => e.sequence)
      = (sortedScored sorter sqrt input).map (fun e => e.sequence) := by
    rw [scoreAndSort_eq_take, ← List.map_append, List.take_append_drop]
  have hex : ((scoreAndSortFretboardSequences sorter sqrt input).map (fun e => e.sequence)
      ++ ((sortedScored sorter sqrt input).drop ScaleCutoff).map (fun e => e.sequence)).Perm
      (input.filter isConsistent) := by
    rw [hsplit]; exact hperm
  refine ⟨?_, _, hex, ?_⟩
  · exact (List.sublist_append_left _ _).subperm.trans hex.subperm
  · intro r hr e he
    obtain ⟨e', he', rfl⟩ := List.mem_map.mp hr
    rw [scoreAndSort_eq_take] at he
    have hpw := sortedScored_pairwise sorter sqrt input
    rw [← List.take_append_drop ScaleCutoff (sortedScored sorter sqrt input),
      List.pairwise_append] at hpw
    have hle := hpw.2.2 e he e' he'
    have hsc := (mem_sortedScored sorter sqrt input e' (List.mem_of_mem_drop he')).2.2
    rw [← hsc]
    exact hle

end SelectLemmas



/-! ## The layout and the inverse index -/

/-- The layout is the value of the checked construction. -/
theorem getFretboard?_eq : getFretboard? = some getFretboard := by
  simp [getFretboard]

/-- **C9.** In the table built by `getFretboard`, fret 0 of the strings 0..5 holds
E4, B3, G3, D3, A2, E2, and on every string the pitch at fret `f + 1` is one semitone above
the pitch at fret `f`: its name is the next name of the 12-note alphabet (after B comes
C), and its octave is the same, except that it is one higher exactly when the name wraps
from B to C. -/
theorem getFretboard_semitone :
    ((List.finRange NumStrings).map fun s => getFretboard.musicalNotes s ⟨0, by decide⟩)
        = [⟨"E", 4⟩, ⟨"B", 3⟩, ⟨"G", 3⟩, ⟨"D", 3⟩, ⟨"A", 2⟩, ⟨"E", 2⟩] ∧
      ∀ (s : Fin NumStrings) (f : Nat) (hf : f + 1 < NumFrets),
        0 ≤ indexOf (getFretboard.musicalNotes s ⟨f, by omega⟩).note getCanonicalNotes ∧
        index getCanonicalNotes
            (Int.tmod (indexOf (getFretboard.musicalNotes s ⟨f, by omega⟩).note
              getCanonicalNotes + 1) NumCanonicalNotes)
          = some (getFretboard.musicalNotes s ⟨f + 1, hf⟩).note ∧
        ((getFretboard.musicalNotes s ⟨f, by omega⟩).note = "B" ↔
          (getFretboard.musicalNotes s ⟨f + 1, hf⟩).note = "C") ∧
        (getFretboard.musicalNotes s ⟨f + 1, hf⟩).octave
          = (getFretboard.musicalNotes s ⟨f, by omega⟩).octave
            + (if (getFretboard.musicalNotes s ⟨f, by omega⟩).note = "B" then 1 else 0) := by
  refine ⟨by decide, ?_⟩
  have key : ∀ (s : Fin NumStrings) (f : Fin NumFrets) (hf : f.val + 1 < NumFrets),
      0 ≤ indexOf (getFretboard.musicalNotes s f).note getCanonicalNotes ∧
      index getCanonicalNotes
          (Int.tmod (indexOf (getFretboard.musicalNotes s f).note
            getCanonicalNotes + 1) NumCanonicalNotes)
        = some (getFretboard.musicalNotes s ⟨f.val + 1, hf⟩).note ∧
      ((getFretboard.musicalNotes s f).note = "B" ↔
        (getFretboard.musicalNotes s ⟨f.val + 1, hf⟩).note = "C") ∧
      (getFretboard.musicalNotes s ⟨f.val + 1, hf⟩).octave
        = (getFretboard.musicalNotes s f).octave
          + (if (getFretboard.musicalNotes s f).note = "B" then 1 else 0) := by
    decide
  intro s f hf
  exact key s ⟨f, by omega⟩ hf

/-- Witness of C9: string 1 from fret 0 (B3) to fret 1 (C4), the wrap of the alphabet. -/
theorem getFretboard_semitone_witness :
    (0 : Nat) + 1 < NumFrets ∧
      getFretboard.musicalNotes ⟨1, by decide⟩ ⟨0, by decide⟩ = ⟨"B", 3⟩ ∧
      (getFretboard.musicalNotes ⟨1, by decide⟩ ⟨0 + 1, by decide⟩).octave
        = (getFretboard.musicalNotes ⟨1, by decide⟩ ⟨0, by decide⟩).octave
          + (if (getFretboard.musicalNotes ⟨1, by decide⟩ ⟨0, by decide⟩).note = "B"
              then 1 else 0) :=
  ⟨by decide, by decide,
    (getFretboard_semitone.2 ⟨1, by decide⟩ 0 (by decide)).2.2.2⟩


/-- The inner loop of `getMusicalNoteToCoordinatesMap`, read at a key. -/
theorem mapInner_apply (g : MusicalNote → List FretboardCoordinate) (octave : Int)
    (notes : List String) (init : MusicalNote → Option (List FretboardCoordinate))
    (p : MusicalNote) :
    notes.foldl (fun result canonicalNote =>
        Function.update result (⟨canonicalNote, octave⟩ : MusicalNote)
          (some (g ⟨canonicalNote, octave⟩))) init p
      = if p.octave = octave ∧ p.note ∈ notes then some (g p) else init p := by
  induction notes generalizing init with
  | nil => simp
  | cons n ns ih =>
    rw [List.foldl_cons, ih]
    by_cases h1 : p.octave = octave ∧ p.note ∈ ns
    · have h2 : p.octave = octave ∧ p.note ∈ n :: ns := ⟨h1.1, List.mem_cons_of_mem _ h1.2⟩
      rw [if_pos h1, if_pos h2]
    · rw [if_neg h1]
      by_cases h3 : p = ⟨n, octave⟩
      · subst h3
        simp
      · rw [Function.update_noteq h3]
        have h4 : ¬ (p.octave = octave ∧ p.note ∈ n :: ns) := by
          rintro ⟨ho, hm⟩
          rcases List.mem_cons.mp hm with hn | hn
          · apply h3
            cases p
            simp_all
          · exact h1 ⟨ho, hn⟩
        rw [if_neg h4]

/-- The inverse index read at a pitch: the pitches of the 12 names and the octaves
`MinOctave..MaxOctave` are its keys, each with its candidate list. -/
theorem getMusicalNoteToCoordinatesMap_apply (fretboard : Fretboard) (p : MusicalNote) :
    getMusicalNoteToCoordinatesMap fretboard p
      = if p.octave ∈ octaveRange MinOctave MaxOctave ∧ p.note ∈ getCanonicalNotes then
          some (getMusicalNoteCoordinates p fretboard)
        else none := by
  unfold getMusicalNoteToCoordinatesMap
  simp only
  generalize octaveRange MinOctave MaxOctave = octaves
  have hgen : ∀ (init : MusicalNote → Option (List FretboardCoordinate)),
      octaves.foldl (fun result octave =>
        getCanonicalNotes.foldl (fun result canonicalNote =>
          Function.update result (⟨canonicalNote, octave⟩ : MusicalNote)
            (some (getMusicalNoteCoordinates ⟨canonicalNote, octave⟩ fretboard))) result) init p
      = if p.octave ∈ octaves ∧ p.note ∈ getCanonicalNotes then
          some (getMusicalNoteCoordinates p fretboard)
        else init p := by
    induction octaves with
    | nil => intro init; simp
    | cons o os ih =>
      intro init
      rw [List.foldl_cons, ih,
        mapInner_apply (fun n => getMusicalNoteCoordinates n fretboard)]
      by_cases hn : p.note ∈ getCanonicalNotes
      · by_cases ho : p.octave = o
        · simp [hn, ho]
        · by_cases hos : p.octave ∈ os <;> simp [hn, ho, hos]
      · simp [hn]
  exact hgen _

/-- The layout read at a position built from table indices. -/
theorem noteAt_mk (fretboard : Fretboard) (s : Fin NumStrings) (f : Fin NumFrets) :
    fretboard.noteAt ⟨s.val, f.val⟩ = some (fretboard.musicalNotes s f) := by
  have h : (0 ≤ ((s.val : Nat) : Int) ∧ ((s.val : Nat) : Int).toNat < NumStrings) ∧
      (0 ≤ ((f.val : Nat) : Int) ∧ ((f.val : Nat) : Int).toNat < NumFrets) := by
    simp [s.isLt, f.isLt]
  simp only [Fretboard.noteAt, dif_pos h]
  simp

/-- **C10.** For the index built from the layout of `getFretboard`: every position listed
under a key `p` holds the pitch `p`; and every position of the table holds a pitch `q`
whose octave lies in `[2, 6]`, which is a key of the index, and the position is listed
under `q`. -/
theorem getMusicalNoteToCoordinatesMap_roundtrip :
    (∀ (p : MusicalNote) (coords : List FretboardCoordinate),
      getMusicalNoteToCoordinatesMap getFretboard p = some coords →
        ∀ c ∈ coords, getFretboard.noteAt c = some p) ∧
      ∀ (s : Fin NumStrings) (f : Fin NumFrets),
        2 ≤ (getFretboard.musicalNotes s f).octave ∧
        (getFretboard.musicalNotes s f).octave ≤ 6 ∧
        ∃ coords : List FretboardCoordinate,
          getMusicalNoteToCoordinatesMap getFretboard (getFretboard.musicalNotes s f)
            = some coords ∧
          (⟨s.val, f.val⟩ : FretboardCoordinate) ∈ coords := by
  constructor
  · intro p coords hp c hc
    rw [getMusicalNoteToCoordinatesMap_apply] at hp
    split at hp
    · cases hp
      exact (mem_getMusicalNoteCoordinates p getFretboard c).mp hc
    · cases hp
  · intro s f
    have hkey : ∀ (s : Fin NumStrings) (f : Fin NumFrets),
        2 ≤ (getFretboard.musicalNotes s f).octave ∧
        (getFretboard.musicalNotes s f).octave ≤ 6 ∧
        (getFretboard.musicalNotes s f).octave ∈ octaveRange MinOctave MaxOctave ∧
        (getFretboard.musicalNotes s f).note ∈ getCanonicalNotes := by
      decide
    obtain ⟨h2, h6, ho, hn⟩ := hkey s f
    refine ⟨h2, h6, getMusicalNoteCoordinates (getFretboard.musicalNotes s f) getFretboard, ?_, ?_⟩
    · rw [getMusicalNoteToCoordinatesMap_apply, if_pos ⟨ho, hn⟩]
    · exact (mem_getMusicalNoteCoordinates _ _ _).mpr (noteAt_mk getFretboard s f)

/-! ## The scale generator -/

/-- Go's `+` is exact on sums inside the 64-bit range. -/
theorem wrapInt_eq (x : Int) (h1 : MinInt ≤ x) (h2 : x ≤ MaxInt) : wrapInt x = x := by
  unfold MinInt at h1
  unfold MaxInt at h2
  unfold wrapInt
  omega

/-- A canonical name sits at its `indexOf`, which lies in `[0, 12)`. -/
theorem indexOf_canonical (name : String) (h : name ∈ getCanonicalNotes) :
    0 ≤ indexOf name getCanonicalNotes ∧ indexOf name getCanonicalNotes < 12 ∧
      index getCanonicalNotes (indexOf name getCanonicalNotes) = some name := by
  have key : ∀ n ∈ getCanonicalNotes,
      0 ≤ indexOf n getCanonicalNotes ∧ indexOf n getCanonicalNotes < 12 ∧
        index getCanonicalNotes (indexOf n getCanonicalNotes) = some n := by
    decide
  exact key name h

/-- A read of the alphabet at an index in `[0, 12)` succeeds. -/
theorem index_canonical (i : Int) (h0 : 0 ≤ i) (h12 : i < 12) :
    index getCanonicalNotes i = some (getCanonicalNotes.getD i.toNat "") := by
  obtain ⟨n, rfl⟩ := Int.eq_ofNat_of_zero_le h0
  have hn : n < 12 := by omega
  simp only [index, h0, if_true, Int.toNat_ofNat]
  interval_cases n <;> rfl

/-- One pass through the loop body of `getScale` while no addition overflows. -/
theorem getScaleStep_eq (r octave offset step : Int) (acc : List MusicalNote)
    (hr : 0 ≤ r) (hoff : 0 ≤ offset) (hfit : r + offset ≤ MaxInt)
    (hlo : MinInt ≤ octave) (hoct : octave + (r + offset) / 12 ≤ MaxInt) :
    getScaleStep r octave getCanonicalNotes (acc, offset) step
      = some (acc ++ [transposed r octave offset], wrapInt (offset + step)) := by
  have hnn : 0 ≤ r + offset := by omega
  have hminmax : MinInt ≤ 0 := by decide
  have hw : wrapInt (r + offset) = r + offset := wrapInt_eq _ (by unfold MinInt; omega) hfit
  have hq : 0 ≤ (r + offset) / 12 := Int.ediv_nonneg hnn (by norm_num)
  have hd : Int.tdiv (r + offset) NumCanonicalNotes = (r + offset) / 12 :=
    Int.tdiv_eq_ediv hnn (by decide)
  have hm : Int.tmod (r + offset) NumCanonicalNotes = (r + offset) % 12 :=
    Int.tmod_eq_emod hnn (by decide)
  have hwo : wrapInt (octave + (r + offset) / 12) = octave + (r + offset) / 12 :=
    wrapInt_eq _ (by omega) hoct
  have hi := index_canonical ((r + offset) % 12) (Int.emod_nonneg _ (by norm_num))
    (Int.emod_lt_of_pos _ (by norm_num))
  simp only [getScaleStep, hw, hd, hm, hwo, hi, transposed]
  rfl


/-- The loop of `getScale` from a state `(acc, offset)`: while the root index plus the
offsets before the last pass fit the 64-bit range, it appends the transposed pitches. -/
theorem getScale_loop (r octave : Int) (hr : 0 ≤ r) (hlo : MinInt ≤ octave)
    (steps : List Int) :
    ∀ (acc : List MusicalNote) (offset : Int), 0 ≤ offset →
      (∀ s ∈ steps.dropLast, 0 ≤ s) →
      r + offset + steps.dropLast.sum ≤ MaxInt →
      octave + (r + offset + steps.dropLast.sum) / 12 ≤ MaxInt →
      ∃ last : Int,
        steps.foldlM (getScaleStep r octave getCanonicalNotes) (acc, offset)
          = some (acc ++ transposedFrom r octave offset steps, last) := by
  induction steps with
  | nil =>
    intro acc offset _ _ _ _
    exact ⟨offset, by simp [transposedFrom]⟩
  | cons step rest ih =>
    intro acc offset hoff hsteps hfit hoct
    have hsum : 0 ≤ (step :: rest).dropLast.sum := List.sum_nonneg hsteps
    have hfit0 : r + offset ≤ MaxInt := by omega
    have hoct0 : octave + (r + offset) / 12 ≤ MaxInt := by
      have := Int.ediv_le_ediv (c := 12) (by norm_num)
        (show r + offset ≤ r + offset + (step :: rest).dropLast.sum by omega)
      omega
    rw [List.foldlM_cons, getScaleStep_eq r octave offset step acc hr hoff hfit0 hlo hoct0]
    cases rest with
    | nil =>
      exact ⟨wrapInt (offset + step), by simp [transposedFrom]⟩
    | cons q rest =>
      rw [List.dropLast_cons₂] at hsteps hfit hoct hsum
      have hstep : 0 ≤ step := hsteps step (List.mem_cons_self _ _)
      have hrest : ∀ s ∈ (q :: rest).dropLast, 0 ≤ s :=
        fun s hs => hsteps s (List.mem_cons_of_mem _ hs)
      have hsum' : 0 ≤ (q :: rest).dropLast.sum := List.sum_nonneg hrest
      rw [List.sum_cons] at hfit hoct
      have hw : wrapInt (offset + step) = offset + step :=
        wrapInt_eq _ (by unfold MinInt; omega) (by omega)
      obtain ⟨last, hlast⟩ := ih (acc ++ [transposed r octave offset]) (offset + step)
        (by omega) hrest (by omega)
        (by rw [show r + (offset + step) + (q :: rest).dropLast.sum
              = r + offset + (step + (q :: rest).dropLast.sum) by ring]; exact hoct)
      refine ⟨last, ?_⟩
      simp only [Option.some_bind, Option.bind_eq_bind, hw, hlast, transposedFrom,
        List.append_assoc, List.singleton_append]

/-- The transposed pitches: one per step. -/
theorem transposedFrom_length (r octave : Int) (steps : List Int) :
    ∀ offset : Int, (transposedFrom r octave offset steps).length = steps.length := by
  induction steps with
  | nil => intro offset; rfl
  | cons step rest ih => intro offset; simp [transposedFrom, ih]

/-- The transposed pitch of index `i` is the one of the sum of the first `i` steps. -/
theorem transposedFrom_getElem (r octave : Int) (steps : List Int) :
    ∀ (offset : Int) (i : Nat) (hi : i < (transposedFrom r octave offset steps).length),
      (transposedFrom r octave offset steps)[i]
        = transposed r octave (offset + (steps.take i).sum) := by
  induction steps with
  | nil => intro offset i hi; simp [transposedFrom] at hi
  | cons step rest ih =>
    intro offset i hi
    cases i with
    | zero => simp [transposedFrom]
    | succ i =>
      simp only [transposedFrom, List.getElem_cons_succ, List.take_succ_cons, List.sum_cons]
      rw [ih]
      congr 1
      ring

/-- The last step does not enter the transposed pitches. -/
theorem transposedFrom_last (r octave : Int) (front : List Int) (d d' : Int) :
    ∀ offset : Int, transposedFrom r octave offset (front ++ [d])
      = transposedFrom r octave offset (front ++ [d']) := by
  induction front with
  | nil => intro offset; simp [transposedFrom]
  | cons step rest ih => intro offset; simp [transposedFrom, ih]

/-- The result of `getScale` while no addition overflows. -/
theorem getScale_eq (root : MusicalNote) (steps : List Int)
    (hname : root.note ∈ getCanonicalNotes) (hsteps : ∀ s ∈ steps.dropLast, 0 ≤ s)
    (hfit : indexOf root.note getCanonicalNotes + steps.dropLast.sum ≤ MaxInt)
    (hlo : MinInt ≤ root.octave)
    (hoct : root.octave + (indexOf root.note getCanonicalNotes + steps.dropLast.sum) / 12
      ≤ MaxInt) :
    getScale root steps
      = some (transposedFrom (indexOf root.note getCanonicalNotes) root.octave 0 steps) := by
  obtain ⟨last, hlast⟩ := getScale_loop (indexOf root.note getCanonicalNotes) root.octave
    (indexOf_canonical root.note hname).1 hlo steps [] 0 (le_refl 0) hsteps
    (by simpa using hfit) (by simpa using hoct)
  simp [getScale, hlast]


/-- While the root index plus the offsets before the last pass fit the 64-bit range, every
offset of the loop is non-negative and fits with the root index. -/
theorem getScaleOffsets_fit (r : Int) (hr : 0 ≤ r) (steps : List Int) :
    ∀ offset : Int, 0 ≤ offset → (∀ s ∈ steps.dropLast, 0 ≤ s) →
      r + offset + steps.dropLast.sum ≤ MaxInt →
      ∀ o ∈ getScaleOffsets offset steps, 0 ≤ o ∧ r + o ≤ MaxInt := by
  induction steps with
  | nil => intro offset _ _ _ o ho; simp [getScaleOffsets] at ho
  | cons step rest ih =>
    intro offset hoff hsteps hfit o ho
    have hsum : 0 ≤ (step :: rest).dropLast.sum := List.sum_nonneg hsteps
    simp only [getScaleOffsets, List.mem_cons] at ho
    rcases ho with rfl | ho
    · exact ⟨hoff, by omega⟩
    · cases rest with
      | nil => simp [getScaleOffsets] at ho
      | cons q rest =>
        rw [List.dropLast_cons₂] at hsteps hfit
        have hstep : 0 ≤ step := hsteps step (List.mem_cons_self _ _)
        have hrest : ∀ s ∈ (q :: rest).dropLast, 0 ≤ s :=
          fun s hs => hsteps s (List.mem_cons_of_mem _ hs)
        have hsum' : 0 ≤ (q :: rest).dropLast.sum := List.sum_nonneg hrest
        rw [List.sum_cons] at hfit
        have hw : wrapInt (offset + step) = offset + step :=
          wrapInt_eq _ (by unfold MinInt; omega) (by omega)
        rw [hw] at ho
        exact ih (offset + step) (by omega) hrest (by omega) o ho

/-- The loop of `getScale` returns when every read of the alphabet is in range. -/
theorem getScale_loop_isSome (r octave : Int) (steps : List Int) :
    ∀ (acc : List MusicalNote) (offset : Int),
      (∀ o ∈ getScaleOffsets offset steps,
        0 ≤ Int.tmod (wrapInt (r + o)) NumCanonicalNotes ∧
          Int.tmod (wrapInt (r + o)) NumCanonicalNotes < 12) →
      (steps.foldlM (getScaleStep r octave getCanonicalNotes) (acc, offset)).isSome
        = true := by
  induction steps with
  | nil => intro acc offset _; rfl
  | cons step rest ih =>
    intro acc offset h
    have h0 := h offset (by simp [getScaleOffsets])
    have hi := index_canonical _ h0.1 h0.2
    rw [List.foldlM_cons]
    simp only [getScaleStep, hi, Option.some_bind, Option.bind_eq_bind, Option.pure_def]
    exact ih _ _ (fun o ho => h o (by simp [getScaleOffsets, ho]))

/-- **C11.** For a root pitch with a canonical name (alphabet index `r`) and a pattern of
non-negative deltas, as long as no addition leaves the 64-bit range of `int` (`r` plus the
deltas before the last, and the octave this sum reaches), `getScale` returns a scale of
the pattern's length whose element 0 is the root and whose element `i` is the root
transposed by `s_i = steps[0] + ... + steps[i-1]`: name `alphabet[(r + s_i) mod 12]`,
octave `root.octave + (r + s_i) div 12`; the last delta influences no element. -/
theorem getScale_transposes (root : MusicalNote) (steps : List Int)
    (hname : root.note ∈ getCanonicalNotes) (hsteps : ∀ s ∈ steps, 0 ≤ s)
    (hfit : indexOf root.note getCanonicalNotes + steps.dropLast.sum ≤ MaxInt)
    (hlo : MinInt ≤ root.octave)
    (hoct : root.octave + (indexOf root.note getCanonicalNotes + steps.dropLast.sum) / 12
      ≤ MaxInt) :
    ∃ scale : List MusicalNote,
      getScale root steps = some scale ∧
      scale.length = steps.length ∧
      (∀ h0 : 0 < scale.length, scale[0] = root) ∧
      (∀ (i : Nat) (hi : i < scale.length),
        index getCanonicalNotes
            ((indexOf root.note getCanonicalNotes + (steps.take i).sum) % 12)
          = some scale[i].note ∧
        scale[i].octave
          = root.octave + (indexOf root.note getCanonicalNotes + (steps.take i).sum) / 12) ∧
      (∀ d : Int, steps ≠ [] → getScale root (steps.dropLast ++ [d]) = some scale) := by
  have hdrop : ∀ s ∈ steps.dropLast, 0 ≤ s :=
    fun s hs => hsteps s (List.dropLast_subset _ hs)
  have hcan := indexOf_canonical root.note hname
  have heq := getScale_eq root steps hname hdrop hfit hlo hoct
  refine ⟨_, heq, transposedFrom_length _ _ _ _, ?_, ?_, ?_⟩
  · intro h0
    rw [transposedFrom_getElem]
    simp only [List.take_zero, List.sum_nil, add_zero, transposed]
    have hmod : indexOf root.note getCanonicalNotes % 12 = indexOf root.note getCanonicalNotes :=
      Int.emod_eq_of_lt hcan.1 hcan.2.1
    have hdiv : indexOf root.note getCanonicalNotes / 12 = 0 :=
      Int.ediv_eq_zero_of_lt hcan.1 hcan.2.1
    have hget := index_canonical _ hcan.1 hcan.2.1
    rw [hcan.2.2] at hget
    rw [hmod, hdiv, add_zero, ← Option.some.inj hget]
  · intro i hi
    rw [transposedFrom_getElem]
    simp only [zero_add, transposed]
    exact ⟨index_canonical _ (Int.emod_nonneg _ (by norm_num))
      (Int.emod_lt_of_pos _ (by norm_num)), trivial⟩
  · intro d hne
    have hsplit : steps = steps.dropLast ++ [steps.getLast hne] :=
      (List.dropLast_append_getLast hne).symm
    have hd : (steps.dropLast ++ [d]).dropLast = steps.dropLast := by simp
    rw [getScale_eq root (steps.dropLast ++ [d]) hname (by rw [hd]; exact hdrop)
      (by rw [hd]; exact hfit) hlo (by rw [hd]; exact hoct)]
    congr 1
    conv_rhs => rw [hsplit]
    exact transposedFrom_last _ _ _ _ _ _


set_option maxRecDepth 8000 in
/-- Counterexample to C11 as stated: from root A3 along `[9223372036854775807, 0]` the sum
of root index and offset leaves the 64-bit range at the second pass, and `getScale`
returns C of a negative octave where the claim has E of octave 768614336404564654; so no
result of `getScale` has the claimed element 1. -/
theorem getScale_transposes_counterexample :
    "A" ∈ getCanonicalNotes ∧
      (∀ s ∈ ([9223372036854775807, 0] : List Int), 0 ≤ s) ∧
      getScale ⟨"A", 3⟩ [9223372036854775807, 0]
        = some [⟨"A", 3⟩, ⟨"C", -768614336404564647⟩] ∧
      index getCanonicalNotes
          ((indexOf "A" getCanonicalNotes + 9223372036854775807) % 12) = some "E" ∧
      3 + (indexOf "A" getCanonicalNotes + 9223372036854775807) / 12
        = 768614336404564654 ∧
      ¬ ∃ scale : List MusicalNote,
        getScale ⟨"A", 3⟩ [9223372036854775807, 0] = some scale ∧
        ∀ (i : Nat) (hi : i < scale.length),
          index getCanonicalNotes
              ((indexOf "A" getCanonicalNotes
                + (([9223372036854775807, 0] : List Int).take i).sum) % 12)
            = some scale[i].note ∧
          scale[i].octave
            = 3 + (indexOf "A" getCanonicalNotes
                + (([9223372036854775807, 0] : List Int).take i).sum) / 12 := by
  have hval : getScale ⟨"A", 3⟩ [9223372036854775807, 0]
      = some [⟨"A", 3⟩, ⟨"C", -768614336404564647⟩] := by decide
  refine ⟨by decide, by decide, hval, by decide, by decide, ?_⟩
  rintro ⟨scale, hscale, hall⟩
  rw [hval] at hscale
  cases hscale
  have h1 := (hall 1 (by decide)).2
  revert h1
  decide

set_option maxRecDepth 8000 in
/-- Witness of C11: root C3 along the minor pattern. -/
theorem getScale_transposes_witness :
    ∃ scale : List MusicalNote,
      getScale ⟨"C", 3⟩ getMinorScaleSteps = some scale ∧
      scale.length = getMinorScaleSteps.length ∧
      (∀ h0 : 0 < scale.length, scale[0] = ⟨"C", 3⟩) ∧
      (∀ (i : Nat) (hi : i < scale.length),
        index getCanonicalNotes
            ((indexOf "C" getCanonicalNotes + (getMinorScaleSteps.take i).sum) % 12)
          = some scale[i].note ∧
        scale[i].octave
          = 3 + (indexOf "C" getCanonicalNotes + (getMinorScaleSteps.take i).sum) / 12) ∧
      (∀ d : Int, getMinorScaleSteps ≠ [] →
        getScale ⟨"C", 3⟩ (getMinorScaleSteps.dropLast ++ [d]) = some scale) :=
  getScale_transposes ⟨"C", 3⟩ getMinorScaleSteps (by decide) (by decide) (by decide)
    (by decide) (by decide)

set_option maxRecDepth 8000 in
/-- **C12.** `getScale` at root C3 along the minor pattern `[2,1,2,2,1,2,2,0]` returns
exactly C3, D3, D#3, F3, G3, G#3, A#3, C4. -/
theorem getScale_C3_minor :
    getMinorScaleSteps = [2, 1, 2, 2, 1, 2, 2, 0] ∧
      getScale ⟨"C", 3⟩ getMinorScaleSteps
        = some [⟨"C", 3⟩, ⟨"D", 3⟩, ⟨"D#", 3⟩, ⟨"F", 3⟩, ⟨"G", 3⟩, ⟨"G#", 3⟩, ⟨"A#", 3⟩,
            ⟨"C", 4⟩] := by
  decide

/-- Counterexample to C16 as stated: from root C3 along `[9223372036854775807, 1, 0]`, all
deltas non-negative, the offset wraps to `-9223372036854775808` at the second addition, the
third pass reads the alphabet at index `-8`, and `getScale` panics. -/
theorem getScale_total_counterexample :
    "C" ∈ getCanonicalNotes ∧
      (∀ s ∈ ([9223372036854775807, 1, 0] : List Int), 0 ≤ s) ∧
      getScaleIndices ⟨"C", 3⟩ [9223372036854775807, 1, 0] = [0, 7, -8] ∧
      (¬ ∀ i ∈ getScaleIndices ⟨"C", 3⟩ [9223372036854775807, 1, 0], 0 ≤ i ∧ i < 12) ∧
      getScale ⟨"C", 3⟩ [9223372036854775807, 1, 0] = none := by
  decide

/-- **C16.** For a root with a canonical name, of any octave, and a pattern of
non-negative deltas, as long as the root index plus the deltas before the last stays in
the 64-bit range of `int`, every read of the alphabet by `getScale` is at an index in
`[0, 12)`, and `getScale` returns a result. -/
theorem getScale_total (root : MusicalNote) (steps : List Int)
    (hname : root.note ∈ getCanonicalNotes) (hsteps : ∀ s ∈ steps, 0 ≤ s)
    (hfit : indexOf root.note getCanonicalNotes + steps.dropLast.sum ≤ MaxInt) :
    (∀ i ∈ getScaleIndices root steps, 0 ≤ i ∧ i < 12) ∧
      (getScale root steps).isSome = true := by
  have hdrop : ∀ s ∈ steps.dropLast, 0 ≤ s :=
    fun s hs => hsteps s (List.dropLast_subset _ hs)
  have hcan := indexOf_canonical root.note hname
  have hfitAll := getScaleOffsets_fit (indexOf root.note getCanonicalNotes) hcan.1 steps 0
    (le_refl 0) hdrop (by simpa using hfit)
  have hidx : ∀ o ∈ getScaleOffsets 0 steps,
      0 ≤ Int.tmod (wrapInt (indexOf root.note getCanonicalNotes + o)) NumCanonicalNotes ∧
        Int.tmod (wrapInt (indexOf root.note getCanonicalNotes + o)) NumCanonicalNotes
          < 12 := by
    intro o ho
    obtain ⟨ho0, hoM⟩ := hfitAll o ho
    have hnn : 0 ≤ indexOf root.note getCanonicalNotes + o := by omega
    rw [wrapInt_eq _ (by unfold MinInt; omega) hoM,
      show NumCanonicalNotes = 12 from rfl, Int.tmod_eq_emod hnn (by norm_num)]
    exact ⟨Int.emod_nonneg _ (by norm_num), Int.emod_lt_of_pos _ (by norm_num)⟩
  constructor
  · intro i hi
    obtain ⟨o, ho, rfl⟩ := List.mem_map.mp hi
    exact hidx o ho
  · have h := getScale_loop_isSome (indexOf root.note getCanonicalNotes) root.octave steps
      [] 0 hidx
    simpa [getScale] using h

/-- Witness of C16: root F# of octave -7 along the major pattern. -/
theorem getScale_total_witness :
    (∀ i ∈ getScaleIndices ⟨"F#", -7⟩ getMajorScaleSteps, 0 ≤ i ∧ i < 12) ∧
      (getScale ⟨"F#", -7⟩ getMajorScaleSteps).isSome = true :=
  getScale_total ⟨"F#", -7⟩ getMajorScaleSteps (by decide) (by decide) (by decide)

/-! ## The score over the reals -/

/-- One more pass of the first loop of `clusterDistance`. -/
theorem runningMeans_append {K : Type} [Zero K] [One K] [Add K] [Sub K] [Mul K] [Div K]
    [IntCast K] (l : List FretboardCoordinate) (a : FretboardCoordinate) :
    runningMeans (K := K) (l ++ [a])
      = ((runningMeans (K := K) l).1 + 1,
          ((((runningMeans (K := K) l).1 : Int) : K) * (runningMeans (K := K) l).2.1
              + ((a.stringId : Int) : K)) / ((((runningMeans (K := K) l).1 : Int) : K) + 1),
          ((((runningMeans (K := K) l).1 : Int) : K) * (runningMeans (K := K) l).2.2
              + ((a.fretId : Int) : K)) / ((((runningMeans (K := K) l).1 : Int) : K) + 1)) := by
  simp [runningMeans, List.foldl_append]

/-- Over the reals the running means, times the number of positions seen, are the sums of
the coordinates. -/
theorem runningMeans_real (l : List FretboardCoordinate) :
    (runningMeans (K := ℝ) l).1 = (l.length : Int) ∧
      (l.length : ℝ) * (runningMeans (K := ℝ) l).2.1
        = (l.map fun c => (c.stringId : ℝ)).sum ∧
      (l.length : ℝ) * (runningMeans (K := ℝ) l).2.2
        = (l.map fun c => (c.fretId : ℝ)).sum := by
  induction l using List.reverseRecOn with
  | nil => simp [runningMeans]
  | append_singleton l a ih =>
    obtain ⟨h1, h2, h3⟩ := ih
    rw [runningMeans_append]
    have hne : ((l.length : ℝ) + 1) ≠ 0 := by positivity
    simp only [h1, List.length_append, List.length_singleton, List.map_append, List.map_cons,
      List.map_nil, List.sum_append, List.sum_cons, List.sum_nil, add_zero, Nat.cast_add,
      Nat.cast_one, Int.cast_natCast]
    refine ⟨trivial, ?_, ?_⟩
    · rw [mul_div_cancel₀ _ hne, h2]
    · rw [mul_div_cancel₀ _ hne, h3]

/-- A loop that adds `g x` per element computes the sum of the `g x`. -/
theorem foldl_add_eq_sum {α : Type} (g : α → ℝ) (l : List α) (init : ℝ) :
    l.foldl (fun score x => score + g x) init = init + (l.map g).sum := by
  induction l generalizing init with
  | nil => simp
  | cons x xs ih => simp [List.foldl_cons, ih, add_assoc]

/-- **C13.** Over exact real arithmetic, for a non-empty position sequence the running
means that `clusterDistance` updates position by position are the arithmetic means of the
`stringId` and of the `fretId` coordinates, and `clusterDistance` is the sum over the
positions `p` of the distance `sqrt((p.stringId - meanString)^2 + (p.fretId - meanFret)^2)`
to that centroid. -/
theorem clusterDistance_real (s : List FretboardCoordinate) (hs : s ≠ []) :
    (runningMeans (K := ℝ) s).2.1 = (s.map fun c => (c.stringId : ℝ)).sum / s.length ∧
      (runningMeans (K := ℝ) s).2.2 = (s.map fun c => (c.fretId : ℝ)).sum / s.length ∧
      clusterDistance Real.sqrt s
        = (s.map fun p =>
            Real.sqrt
              (((p.stringId : ℝ) - (s.map fun c => (c.stringId : ℝ)).sum / s.length) ^ 2
                + ((p.fretId : ℝ) - (s.map fun c => (c.fretId : ℝ)).sum / s.length) ^ 2)).sum := by
  obtain ⟨_, h2, h3⟩ := runningMeans_real s
  have hlen : (s.length : ℝ) ≠ 0 := by
    have : s.length ≠ 0 := fun h => hs (List.length_eq_zero.mp h)
    exact_mod_cast this
  have hS : (runningMeans (K := ℝ) s).2.1
      = (s.map fun c => (c.stringId : ℝ)).sum / s.length := by
    rw [← h2, mul_div_cancel_left₀ _ hlen]
  have hF : (runningMeans (K := ℝ) s).2.2
      = (s.map fun c => (c.fretId : ℝ)).sum / s.length := by
    rw [← h3, mul_div_cancel_left₀ _ hlen]
  refine ⟨hS, hF, ?_⟩
  unfold clusterDistance
  simp only
  rw [foldl_add_eq_sum, zero_add, hS, hF]
  congr 1
  apply List.map_congr_left
  intro p _
  unfold euclideanDistance
  simp only
  congr 1
  ring

/-- Witness of C13: the sequence `[(2,0), (1,3)]`. -/
theorem clusterDistance_real_witness :
    (runningMeans (K := ℝ) [⟨2, 0⟩, ⟨1, 3⟩]).2.1
        = (([⟨2, 0⟩, ⟨1, 3⟩] : List FretboardCoordinate).map
            fun c => (c.stringId : ℝ)).sum
          / ([⟨2, 0⟩, ⟨1, 3⟩] : List FretboardCoordinate).length :=
  (clusterDistance_real [⟨2, 0⟩, ⟨1, 3⟩] (by decide)).1


/-! ## End to end -/

set_option maxRecDepth 8000 in
/-- The A major scale from A3. -/
theorem getScale_A3_major :
    getScale ⟨"A", 3⟩ getMajorScaleSteps
      = some [⟨"A", 3⟩, ⟨"B", 3⟩, ⟨"C#", 4⟩, ⟨"D", 4⟩, ⟨"E", 4⟩, ⟨"F#", 4⟩, ⟨"G#", 4⟩,
          ⟨"A", 4⟩] := by
  decide

/-- The A major scale from A3 can be played along string 4, frets 12 to 24. -/
theorem A3_major_on_string4 :
    ([⟨4, 12⟩, ⟨4, 14⟩, ⟨4, 16⟩, ⟨4, 17⟩, ⟨4, 19⟩, ⟨4, 21⟩, ⟨4, 23⟩, ⟨4, 24⟩] :
        List FretboardCoordinate)
      ∈ getAllFretboardSequences
          [⟨"A", 3⟩, ⟨"B", 3⟩, ⟨"C#", 4⟩, ⟨"D", 4⟩, ⟨"E", 4⟩, ⟨"F#", 4⟩, ⟨"G#", 4⟩, ⟨"A", 4⟩]
          getFretboard := by
  rw [mem_getAllFretboardSequences]
  refine List.Forall₂.cons (by decide) (List.Forall₂.cons (by decide)
    (List.Forall₂.cons (by decide) (List.Forall₂.cons (by decide)
    (List.Forall₂.cons (by decide) (List.Forall₂.cons (by decide)
    (List.Forall₂.cons (by decide) (List.Forall₂.cons (by decide) List.Forall₂.nil)))))))

/-- **C15.** End to end on the layout of `getFretboard`: for the major pattern
`[2,2,1,2,2,2,1,0]` from root A3, `getScale` returns a scale, and filtering, scoring and
sorting its enumeration gives a non-empty list of at most 10 entries, each consistent,
with scores that do not decrease along the list. -/
theorem A3_major_end_to_end {K : Type} [Zero K] [One K] [Add K] [Sub K] [Mul K] [Div K]
    [IntCast K] [LinearOrder K] (sorter : SliceSorter) (sqrt : K → K) :
    getMajorScaleSteps = [2, 2, 1, 2, 2, 2, 1, 0] ∧
    ∃ scale : List MusicalNote,
      getScale ⟨"A", 3⟩ getMajorScaleSteps = some scale ∧
      scoreAndSortFretboardSequences sorter sqrt (getAllFretboardSequences scale getFretboard)
        ≠ [] ∧
      (scoreAndSortFretboardSequences sorter sqrt
        (getAllFretboardSequences scale getFretboard)).length ≤ 10 ∧
      (∀ e ∈ scoreAndSortFretboardSequences sorter sqrt
          (getAllFretboardSequences scale getFretboard), isConsistent e.sequence = true) ∧
      (scoreAndSortFretboardSequences sorter sqrt
        (getAllFretboardSequences scale getFretboard)).Chain'
          (fun a b => a.score ≤ b.score) := by
  refine ⟨rfl, _, getScale_A3_major, ?_, ?_, ?_, ?_⟩
  · intro hnil
    have hlen := scoreAndSort_length_eq sorter sqrt
      (getAllFretboardSequences
        [⟨"A", 3⟩, ⟨"B", 3⟩, ⟨"C#", 4⟩, ⟨"D", 4⟩, ⟨"E", 4⟩, ⟨"F#", 4⟩, ⟨"G#", 4⟩, ⟨"A", 4⟩]
        getFretboard)
    rw [hnil, List.length_nil] at hlen
    have hpos : 0 < List.countP isConsistent
        (getAllFretboardSequences
          [⟨"A", 3⟩, ⟨"B", 3⟩, ⟨"C#", 4⟩, ⟨"D", 4⟩, ⟨"E", 4⟩, ⟨"F#", 4⟩, ⟨"G#", 4⟩, ⟨"A", 4⟩]
          getFretboard) :=
      List.countP_pos_iff.mpr ⟨_, A3_major_on_string4, by decide⟩
    omega
  · rw [scoreAndSort_length_eq]
    exact Nat.min_le_right _ _
  · intro e he
    rw [scoreAndSort_eq_take] at he
    exact (mem_sortedScored sorter sqrt _ e (List.mem_of_mem_take he)).2.1
  · rw [scoreAndSort_eq_take]
    exact ((sortedScored_pairwise sorter sqrt _).sublist (List.take_sublist _ _)).chain'

/-! ## Degenerate scales -/

/-- **C19.** The scale without pitches has no enumeration at all, not the single empty
sequence; so the one-pitch case is not the cross-product with the enumeration of the
empty remainder, which would be empty, but the wrapped candidates of its own branch. -/
theorem getAllFretboardSequences_empty_scale (fretboard : Fretboard) :
    getAllFretboardSequences [] fretboard = [] ∧
      getAllFretboardSequences [] fretboard ≠ [[]] ∧
      ∀ p : MusicalNote, getMusicalNoteCoordinates p fretboard ≠ [] →
        ((getMusicalNoteCoordinates p fretboard).flatMap fun c =>
            (getAllFretboardSequences [] fretboard).map fun sub => c :: sub) = [] ∧
        getAllFretboardSequences [p] fretboard ≠ [] ∧
        getAllFretboardSequences [p] fretboard
          = (getMusicalNoteCoordinates p fretboard).map fun c => [c] := by
  have hnil := getAllFretboardSequences_nil fretboard
  refine ⟨hnil, by rw [hnil]; exact List.noConfusion, ?_⟩
  intro p hp
  refine ⟨by simp [hnil], ?_, getAllFretboardSequences_single p fretboard⟩
  rw [getAllFretboardSequences_single]
  intro h
  exact hp (List.map_eq_nil_iff.mp h)

/-! ## Base octave 6 -/

set_option maxRecDepth 8000 in
/-- **C20.** Base octave 6 passes the octave check of `main`, yet for each of the 12 root
names and for the minor and the major pattern the scale from `(root, 6)` has no fingering
on the layout of `getFretboard`: its closing pitch `(root, 7)` has no position, every
pitch of the layout being at most E6. -/
theorem octave6_no_fingering :
    octaveAccepted 6 = true ∧
      (∀ root ∈ getCanonicalNotes, ∀ steps ∈ [getMinorScaleSteps, getMajorScaleSteps],
        (getScale ⟨root, 6⟩ steps).map (fun scale =>
            (getAllFretboardSequences scale getFretboard, scale.getLast?))
          = some ([], some ⟨root, 7⟩)) ∧
      (∀ root ∈ getCanonicalNotes,
        getMusicalNoteCoordinates ⟨root, 7⟩ getFretboard = [] ∧
          pitchNumber ⟨"E", 6⟩ < pitchNumber ⟨root, 7⟩) ∧
      (∀ (s : Fin NumStrings) (f : Fin NumFrets),
        pitchNumber (getFretboard.musicalNotes s f) ≤ pitchNumber ⟨"E", 6⟩) := by
  refine ⟨by decide, by decide, by decide, by decide⟩

/-! ## Candidates per string -/

/-- On each string of the layout the chromatic height grows by one per fret. -/
theorem pitchNumber_fret (s : Fin NumStrings) (f : Fin NumFrets) :
    pitchNumber (getFretboard.musicalNotes s f)
      = pitchNumber (getFretboard.musicalNotes s ⟨0, by decide⟩) + f.val := by
  have key : ∀ (s : Fin NumStrings) (f : Fin NumFrets),
      pitchNumber (getFretboard.musicalNotes s f)
        = pitchNumber (getFretboard.musicalNotes s ⟨0, by decide⟩) + f.val := by
    decide
  exact key s f

/-- Distinct frets of one string hold distinct pitches. -/
theorem getFretboard_fret_injective (s : Fin NumStrings) (f f' : Fin NumFrets)
    (h : getFretboard.musicalNotes s f = getFretboard.musicalNotes s f') : f = f' := by
  have h1 := pitchNumber_fret s f
  have h2 := pitchNumber_fret s f'
  rw [h] at h1
  apply Fin.ext
  omega

/-- The candidates of a pitch on one string of a layout, fret by fret. -/
theorem candidates_stringId (fretboard : Fretboard) (p : MusicalNote) (s : Fin NumStrings)
    (c : FretboardCoordinate)
    (hc : c ∈ ((List.finRange NumFrets).filter fun fretId =>
        decide (fretboard.musicalNotes s fretId = p)).map
          fun fretId => (⟨s.val, fretId.val⟩ : FretboardCoordinate)) :
    c.stringId = s.val := by
  obtain ⟨f, _, rfl⟩ := List.mem_map.mp hc
  rfl

/-- A strictly increasing list of integers of `[0, n)` has at most `n` elements. -/
theorem length_le_of_increasing (n : Nat) (l : List Int) (hl : l.Pairwise (fun a b => a < b))
    (hr : ∀ x ∈ l, 0 ≤ x ∧ x < n) : l.length ≤ n := by
  have hnodup : l.Nodup := hl.imp (fun h => ne_of_lt h)
  have hsub : l ⊆ List.map Int.ofNat (List.range n) := by
    intro x hx
    obtain ⟨h0, hn⟩ := hr x hx
    exact List.mem_map.mpr ⟨x.toNat, List.mem_range.mpr (by omega), Int.toNat_of_nonneg h0⟩
  have hle := (List.subperm_of_subset hnodup hsub).length_le
  rw [List.length_map, List.length_range] at hle
  exact hle

/-- **C17.** On the layout of `getFretboard` the pitch of each string, measured as
`12 * octave + alphabet index`, increases strictly with the fret, so distinct frets of a
string hold distinct pitches; hence for every pitch `getMusicalNoteCoordinates` lists at
most one position per string, at most 6 positions, in strictly increasing `stringId`
order. -/
theorem getFretboard_string_monotone :
    (∀ (s : Fin NumStrings) (f f' : Fin NumFrets), f < f' →
      pitchNumber (getFretboard.musicalNotes s f)
        < pitchNumber (getFretboard.musicalNotes s f')) ∧
    (∀ (s : Fin NumStrings) (f f' : Fin NumFrets), f ≠ f' →
      getFretboard.musicalNotes s f ≠ getFretboard.musicalNotes s f') ∧
    ∀ p : MusicalNote,
      (getMusicalNoteCoordinates p getFretboard).Pairwise
          (fun a b => a.stringId < b.stringId) ∧
      (∀ a ∈ getMusicalNoteCoordinates p getFretboard,
        ∀ b ∈ getMusicalNoteCoordinates p getFretboard, a.stringId = b.stringId → a = b) ∧
      (getMusicalNoteCoordinates p getFretboard).length ≤ 6 := by
  refine ⟨?_, ?_, ?_⟩
  · intro s f f' hff
    rw [pitchNumber_fret s f, pitchNumber_fret s f']
    have : f.val < f'.val := hff
    omega
  · intro s f f' hne h
    exact hne (getFretboard_fret_injective s f f' h)
  · intro p
    have hpw : (getMusicalNoteCoordinates p getFretboard).Pairwise
        (fun a b => a.stringId < b.stringId) := by
      rw [getMusicalNoteCoordinates_eq, List.pairwise_flatMap]
      constructor
      · intro s _
        rw [List.pairwise_map]
        have hlt : ((List.finRange NumFrets).filter fun fretId =>
            decide (getFretboard.musicalNotes s fretId = p)).Pairwise (fun a b => a < b) :=
          (List.pairwise_lt_finRange NumFrets).sublist (List.filter_sublist _)
        refine hlt.imp_of_mem ?_
        intro f f' hf hf' hff
        have e1 : getFretboard.musicalNotes s f = p := by
          simpa using (List.mem_filter.mp hf).2
        have e2 : getFretboard.musicalNotes s f' = p := by
          simpa using (List.mem_filter.mp hf').2
        exact absurd (getFretboard_fret_injective s f f' (e1.trans e2.symm)) (ne_of_lt hff)
      · refine (List.pairwise_lt_finRange NumStrings).imp ?_
        intro s s' hss x hx y hy
        rw [candidates_stringId getFretboard p s x hx, candidates_stringId getFretboard p s' y hy]
        have : s.val < s'.val := hss
        omega
    refine ⟨hpw, ?_, ?_⟩
    · intro a ha b hb
      refine List.Pairwise.forall_of_forall
        (R := fun a b : FretboardCoordinate => a.stringId = b.stringId → a = b)
        (fun x y h e => (h e.symm).symm) (fun x _ _ => rfl)
        (hpw.imp (fun h e => absurd e (ne_of_lt h))) ha hb
    · have hlen := length_le_of_increasing 6
        ((getMusicalNoteCoordinates p getFretboard).map fun c => c.stringId)
        (List.pairwise_map.mpr hpw)
        (by
          intro x hx
          obtain ⟨c, hc, rfl⟩ := List.mem_map.mp hx
          have hr := noteAt_eq_some_range _ _ _
            ((mem_getMusicalNoteCoordinates p getFretboard c).mp hc)
          exact ⟨hr.1, by exact_mod_cast hr.2.1⟩)
      simpa using hlen

/-! ## Size of the enumeration -/

/-- The cross-product loop yields one entry per pair. -/
theorem length_cross {α β γ : Type} (g : α → β → γ) (l : List α) (sub : List β) :
    (l.flatMap fun c => sub.map (g c)).length = l.length * sub.length := by
  induction l with
  | nil => simp
  | cons x xs ih => simp [List.flatMap_cons, ih, Nat.add_mul, Nat.add_comm]

/-- No position is listed twice among the candidates of a pitch, on any layout. -/
theorem getMusicalNoteCoordinates_nodup (p : MusicalNote) (fretboard : Fretboard) :
    (getMusicalNoteCoordinates p fretboard).Nodup := by
  rw [getMusicalNoteCoordinates_eq, List.nodup_flatMap]
  constructor
  · intro s _
    refine List.Nodup.map ?_ ((List.nodup_finRange NumFrets).filter _)
    intro f f' h
    simp only [FretboardCoordinate.mk.injEq, Nat.cast_inj, true_and] at h
    exact Fin.ext h
  · refine (List.nodup_finRange NumStrings).imp ?_
    intro s s' hss x hx hx'
    have e1 := candidates_stringId fretboard p s x hx
    have e2 := candidates_stringId fretboard p s' x hx'
    apply hss
    apply Fin.ext
    have : (s.val : Int) = s'.val := e1.symm.trans e2
    exact_mod_cast this

/-- No sequence is enumerated twice, on any layout. -/
theorem getAllFretboardSequences_nodup (fretboard : Fretboard) (scale : List MusicalNote) :
    (getAllFretboardSequences scale fretboard).Nodup := by
  induction scale with
  | nil => rw [getAllFretboardSequences_nil]; exact List.nodup_nil
  | cons p rest ih =>
    cases rest with
    | nil =>
      rw [getAllFretboardSequences_single]
      exact List.Nodup.map (fun a b h => by simpa using h)
        (getMusicalNoteCoordinates_nodup p fretboard)
    | cons q rest =>
      rw [getAllFretboardSequences_cons_cons, List.nodup_flatMap]
      constructor
      · intro c _
        exact List.Nodup.map (fun a b h => by simpa using h) ih
      · refine (getMusicalNoteCoordinates_nodup p fretboard).imp ?_
        intro c c' hcc x hx hx'
        obtain ⟨sub, _, rfl⟩ := List.mem_map.mp hx
        obtain ⟨sub', _, h⟩ := List.mem_map.mp hx'
        exact hcc (List.cons.inj h).1.symm

/-- **C18.** For a scale with at least one pitch the enumeration has as many sequences as
the product, over the pitches of the scale, of the numbers of candidates of the pitches;
and it lists no sequence twice. -/
theorem getAllFretboardSequences_length (scale : List MusicalNote) (fretboard : Fretboard)
    (hscale : scale ≠ []) :
    (getAllFretboardSequences scale fretboard).length
        = (scale.map fun p => (getMusicalNoteCoordinates p fretboard).length).prod ∧
      (getAllFretboardSequences scale fretboard).Nodup := by
  refine ⟨?_, getAllFretboardSequences_nodup fretboard scale⟩
  induction scale with
  | nil => exact absurd rfl hscale
  | cons p rest ih =>
    cases rest with
    | nil =>
      rw [getAllFretboardSequences_single]
      simp
    | cons q rest =>
      rw [getAllFretboardSequences_cons_cons, length_cross, ih (List.cons_ne_nil _ _)]
      simp

set_option maxRecDepth 8000 in
/-- Witness of C18: the scale `[E2, E4]`, with 1 and 6 candidates, has 6 fingerings. -/
theorem getAllFretboardSequences_length_witness :
    (getAllFretboardSequences [⟨"E", 2⟩, ⟨"E", 4⟩] getFretboard).length
        = (([⟨"E", 2⟩, ⟨"E", 4⟩] : List MusicalNote).map fun p =>
            (getMusicalNoteCoordinates p getFretboard).length).prod ∧
      (([⟨"E", 2⟩, ⟨"E", 4⟩] : List MusicalNote).map fun p =>
            (getMusicalNoteCoordinates p getFretboard).length) = [1, 6] ∧
      (getAllFretboardSequences [⟨"E", 2⟩, ⟨"E", 4⟩] getFretboard).Nodup :=
  ⟨(getAllFretboardSequences_length [⟨"E", 2⟩, ⟨"E", 4⟩] getFretboard (by decide)).1,
    by decide,
    (getAllFretboardSequences_length [⟨"E", 2⟩, ⟨"E", 4⟩] getFretboard (by decide)).2⟩

/-! ## The sort of the Go library: what it sees of the elements -/

section GoSortMap

variable {α β : Type} (g : β → α) (less : α → α → Bool)

end GoSortMap

/-! ## Ties -/

section GoStable

variable {α : Type}

end GoStable

section GoSelectLemmas

variable {K : Type} [Zero K] [One K] [Add K] [Sub K] [Mul K] [Div K] [IntCast K]
  [LinearOrder K]

end GoSelectLemmas

end GuitarScales
